import Mathlib

/-!
Verification development for the `rust-build` dependency engine.

The definitions below are a shallow embedding of the engine's core:

* `Time`, `EngineState` — the change-detection cache and the on-disk
  modification times consulted by the `File` effect
  (`src/cache.rs`: `LastEditedTime`, `CacheEntry`, `Cache`);
* `ViewFilter`, `viewIterate` — the filtered effect views
  (`rust-build/src/view.rs`);
* `fileHasChanged`, `fileCommitChange`, `effHasChanged`, `effCommitChange` —
  the `File`, `TrueEffect` and `FalseEffect` effect capabilities
  (`src/library/file.rs`, `rust-build-std/src/effects/trivial.rs`);
* `depsList`, `makeF`, `commitList` — the default `Target::make` /
  `Target::build_deps` / `Target::commit` orchestration
  (`rust-build/src/spec.rs`), with a fuel parameter standing for the
  Rust call stack (the source recursion is unbounded);
* `cacheUpdateOps` — the filesystem operations performed by
  `Cache::update_file` (`src/cache.rs`);
* `deduceEffects` — `CargoTarget::deduce_effects`
  (`rust-build-std/src/targets/cargo.rs`).

Artifact paths consulted by `File` are abstracted to `Nat` identifiers;
the engine's `os`/`arch` parameters are omitted because the default
orchestration in `Target::make`/`build_deps`/`commit` only forwards them
to the child-provided `build`, whose outcome is modelled as a fixed
per-target result.
-/

/-- Last-modified time of an artifact, as stored by the cache: a pair of
unix seconds and nanoseconds (`LastEditedTime` wrapping `FileTime` in
`src/cache.rs`, whose derived ordering is lexicographic on the two
fields). -/
structure Time where
  secs  : Int
  nsecs : Nat
deriving DecidableEq, Repr

/-- The strict order on `Time` used by `File::has_changed` when it compares
the cached time with the on-disk one (`entry.last_edited > last_edited`),
matching the derived lexicographic `Ord` of `FileTime`. -/
def timeLt (a b : Time) : Bool :=
  a.secs < b.secs || (a.secs == b.secs && a.nsecs < b.nsecs)

/-- The kind of a concrete effect: a `File` effect over an artifact path
(`src/library/file.rs`), or the trivial `TrueEffect` / `FalseEffect`
(`rust-build-std/src/effects/trivial.rs`). -/
inductive EffKind where
  | file (p : Nat)
  | tru
  | fls
deriving DecidableEq, Repr

/-- A concrete effect: a stable name plus its kind
(the `Named` + `Effect` capabilities of `rust-build/src/spec.rs`). -/
structure Eff where
  ename : String
  kind  : EffKind
deriving DecidableEq, Repr

/-- The `ViewFilter` enum of `rust-build/src/view.rs`. -/
inductive ViewFilter where
  | none
  | all
  | allow (names : List String)
  | deny (names : List String)
deriving DecidableEq, Repr

/-- The linear scan used by `ViewFilter::filter` for `Allow`: iterate the
names, returning true at the first match, false when the list is
exhausted. -/
def containsName : List String → String → Bool
  | [], _ => false
  | n :: rest, nm => if n == nm then true else containsName rest nm

/-- The linear scan used by `ViewFilter::filter` for `Deny`: iterate the
names, returning false at the first match, true when the list is
exhausted. -/
def denyScan : List String → String → Bool
  | [], _ => true
  | n :: rest, nm => if n == nm then false else denyScan rest nm

/-- `ViewFilter::filter` (`rust-build/src/view.rs`): whether the effect
with the given name passes this filter. -/
def ViewFilter.filter : ViewFilter → String → Bool
  | .none, _ => false
  | .all, _ => true
  | .allow names, nm => containsName names nm
  | .deny names, nm => denyScan names nm

/-- The inner filter loop of `EffectViewIter::next`: an effect is allowed
iff no filter in the pipeline rejects it (the loop clears `allowed` and
breaks at the first rejecting filter). -/
def passesAll : List ViewFilter → String → Bool
  | [], _ => true
  | f :: rest, nm => if f.filter nm then passesAll rest nm else false

/-- Iteration over an `EffectView` (`EffectViewIter::next` in
`rust-build/src/view.rs`): walk the target's effects in insertion order,
skipping every effect that fails the filter pipeline and yielding the
rest. -/
def viewIterate : List Eff → List ViewFilter → List Eff
  | [], _ => []
  | e :: rest, fs =>
      if passesAll fs e.ename then e :: viewIterate rest fs
      else viewIterate rest fs

/-- The mutable state the engine touches: the cache directory (one stored
last-edited time per hashed artifact path, `src/cache.rs`) and the
on-disk last-modified times of the artifact files themselves. Both are
finite association lists keyed by the abstract artifact path. -/
structure EngineState where
  cache : List (Nat × Time)
  disk  : List (Nat × Time)
deriving DecidableEq, Repr

/-- First-match lookup in an association list of timed entries. -/
def lookupT : List (Nat × Time) → Nat → Option Time
  | [], _ => Option.none
  | (k, t) :: rest, p => if k == p then some t else lookupT rest p

/-- Replace-or-append update of an association list of timed entries. -/
def setT : List (Nat × Time) → Nat → Time → List (Nat × Time)
  | [], p, t => [(p, t)]
  | (k, u) :: rest, p, t =>
      if k == p then (p, t) :: rest else (k, u) :: setT rest p t

/-- Errors raised by the `File` effect itself (`Error::FileNotFound` in
`src/library/file.rs`; cache I/O failures are not representable in this
model, whose cache state is always well-formed). -/
inductive EffError where
  | fileNotFound (p : Nat)
deriving DecidableEq, Repr

/-- `File::has_changed` (`src/library/file.rs`, lines 87-121): error if
the artifact file does not exist; changed if the cache holds no entry;
changed (with a logged warning) if the cached time is later than the
on-disk one; otherwise changed exactly when the two times differ. The
on-disk time is read here at the head of the match rather than after the
cache lookup, which is observationally identical because neither read has
side effects. -/
def fileHasChanged (st : EngineState) (p : Nat) : Except EffError Bool :=
  match lookupT st.disk p with
  | Option.none => .error (.fileNotFound p)
  | some onDisk =>
      match lookupT st.cache p with
      | Option.none => .ok true
      | some entry =>
          if timeLt onDisk entry then .ok true
          else .ok (decide (entry ≠ onDisk))

/-- File commit. Modelled from the spec: the authoritative
`File::commit_change(&self, dry_run)` lives in
`rust-build-std/src/effects/file.rs`, which is declared in
`rust-build-std/src/effects/mod.rs` but missing from the sources; the
older revision in `src/library/file.rs` (lines 125-143, predating the
`dry_run` parameter of the `Effect` trait) errors when the artifact file
does not exist and otherwise writes the file's current last-modified time
into the cache keyed by the file path. Per the spec's dry-run semantics,
`dry_run = true` performs the same validations but no cache write. -/
def fileCommitChange (st : EngineState) (p : Nat) (dry : Bool) :
    Except EffError EngineState :=
  match lookupT st.disk p with
  | Option.none => .error (.fileNotFound p)
  | some onDisk =>
      if dry then .ok st
      else .ok { st with cache := setT st.cache p onDisk }

/-- `Effect::has_changed` dispatched over the concrete effects:
`File::has_changed`, `TrueEffect::has_changed` (always `Ok(true)`),
`FalseEffect::has_changed` (always `Ok(false)`). -/
def effHasChanged (st : EngineState) (e : Eff) : Except EffError Bool :=
  match e.kind with
  | .file p => fileHasChanged st p
  | .tru => .ok true
  | .fls => .ok false

/-- `Effect::commit_change` dispatched over the concrete effects: the
`File` commit above, and the trivial effects whose commit does nothing
(`rust-build-std/src/effects/trivial.rs`). -/
def effCommitChange (st : EngineState) (e : Eff) (dry : Bool) :
    Except EffError EngineState :=
  match e.kind with
  | .file p => fileCommitChange st p dry
  | .tru => .ok st
  | .fls => .ok st

/-- Claim C6: iterating an `EffectView` yields an effect of the target iff
every filter in the pipeline accepts it (`All` always, `None` never,
`Allow(S)` iff the name is in `S`, `Deny(S)` iff the name is not in `S`),
and the yielded effects appear in the target's insertion order restricted
to the accepted ones. -/
theorem view_filter_law (effs : List Eff) (fs : List ViewFilter) (e : Eff) :
    (e ∈ effs → (e ∈ viewIterate effs fs ↔ ∀ f ∈ fs, f.filter e.ename = true))
    ∧ viewIterate effs fs = effs.filter (fun x => passesAll fs x.ename)
    ∧ ViewFilter.filter .all e.ename = true
    ∧ ViewFilter.filter .none e.ename = false
    ∧ (∀ names, ViewFilter.filter (.allow names) e.ename = true ↔ e.ename ∈ names)
    ∧ (∀ names, ViewFilter.filter (.deny names) e.ename = true ↔ e.ename ∉ names) := by
  have hcontains : ∀ (names : List String) (nm : String),
      containsName names nm = true ↔ nm ∈ names := by
    intro names nm
    induction names with
    | nil => simp [containsName]
    | cons n rest ih =>
        by_cases h : n = nm
        · simp [containsName, h]
        · have hne : (n == nm) = false := by
            simp [beq_eq_false_iff_ne, h]
          simp [containsName, hne, ih, Ne.symm h]
  have hdeny : ∀ (names : List String) (nm : String),
      denyScan names nm = true ↔ nm ∉ names := by
    intro names nm
    induction names with
    | nil => simp [denyScan]
    | cons n rest ih =>
        by_cases h : n = nm
        · simp [denyScan, h]
        · have hne : (n == nm) = false := by
            simp [beq_eq_false_iff_ne, h]
          simp [denyScan, hne, ih, Ne.symm h]
  have hpasses : ∀ (fs : List ViewFilter) (nm : String),
      passesAll fs nm = true ↔ ∀ f ∈ fs, f.filter nm = true := by
    intro fs nm
    induction fs with
    | nil => simp [passesAll]
    | cons f rest ih =>
        by_cases h : f.filter nm = true
        · simp [passesAll, h, ih]
        · simp [passesAll, h]
  have hfilter : ∀ (effs : List Eff) (fs : List ViewFilter),
      viewIterate effs fs = effs.filter (fun x => passesAll fs x.ename) := by
    intro effs fs
    induction effs with
    | nil => simp [viewIterate]
    | cons e rest ih =>
        by_cases h : passesAll fs e.ename = true
        · simp [viewIterate, h, ih, List.filter]
        · simp [viewIterate, h, ih, List.filter]
  refine ⟨?_, hfilter effs fs, rfl, rfl, fun names => hcontains names e.ename,
    fun names => hdeny names e.ename⟩
  intro he
  rw [hfilter effs fs]
  constructor
  · intro hmem
    have := List.of_mem_filter hmem
    exact (hpasses fs e.ename).1 this
  · intro hall
    exact List.mem_filter.2 ⟨he, (hpasses fs e.ename).2 hall⟩

/-- Witness for `view_filter_law` at a concrete view: two effects named
`x` and `y`, a pipeline `[Allow(["x", "y"]), Deny(["y"])]`, and the
effect `x`, which passes both filters. -/
theorem view_filter_law_witness :
    (Eff.mk "x" .tru ∈ [Eff.mk "x" .tru, Eff.mk "y" .tru]) ∧
    (Eff.mk "x" .tru ∈
      viewIterate [Eff.mk "x" .tru, Eff.mk "y" .tru]
        [ViewFilter.allow ["x", "y"], ViewFilter.deny ["y"]] ↔
      ∀ f ∈ [ViewFilter.allow ["x", "y"], ViewFilter.deny ["y"]],
        f.filter "x" = true) := by
  refine ⟨by decide, ?_⟩
  exact (view_filter_law [Eff.mk "x" .tru, Eff.mk "y" .tru]
    [ViewFilter.allow ["x", "y"], ViewFilter.deny ["y"]]
    (Eff.mk "x" .tru)).1 (by decide)

/-- Claim C5: for a file-backed effect, `has_changed` errors when the
artifact file does not exist; otherwise it is true when the cache holds
no entry, true when the cached time is later than the on-disk one, and
otherwise true exactly when the cached and on-disk times differ. -/
theorem file_has_changed_spec (st : EngineState) (p : Nat) :
    (lookupT st.disk p = Option.none →
      fileHasChanged st p = .error (.fileNotFound p))
    ∧ (∀ d, lookupT st.disk p = some d → lookupT st.cache p = Option.none →
        fileHasChanged st p = .ok true)
    ∧ (∀ d e, lookupT st.disk p = some d → lookupT st.cache p = some e →
        timeLt d e = true → fileHasChanged st p = .ok true)
    ∧ (∀ d e, lookupT st.disk p = some d → lookupT st.cache p = some e →
        timeLt d e = false →
        fileHasChanged st p = .ok (decide (e ≠ d))) := by
  refine ⟨?_, ?_, ?_, ?_⟩
  · intro h; simp [fileHasChanged, h]
  · intro d hd hc; simp [fileHasChanged, hd, hc]
  · intro d e hd hc hlt; simp [fileHasChanged, hd, hc, hlt]
  · intro d e hd hc hlt; simp [fileHasChanged, hd, hc, hlt]

/-- Witness for `file_has_changed_spec`: a state whose disk holds time
(5, 0) for path 0 and whose cache holds the older time (3, 0), so the
effect reports changed because the two times differ. -/
theorem file_has_changed_spec_witness :
    fileHasChanged
      { cache := [(0, Time.mk 3 0)], disk := [(0, Time.mk 5 0)] } 0 =
      .ok (decide (Time.mk 3 0 ≠ Time.mk 5 0)) := by
  exact (file_has_changed_spec
    { cache := [(0, Time.mk 3 0)], disk := [(0, Time.mk 5 0)] } 0).2.2.2
    (Time.mk 5 0) (Time.mk 3 0) (by decide) (by decide) (by decide)

/-- Claim C7: for every effect, `commit_change` with `dry_run = true`
mutates nothing, and it errors exactly when (and with the same error as)
`commit_change` with `dry_run = false` would, because the dry run
performs the same validations. -/
theorem commit_change_dry_run_spec (st : EngineState) (e : Eff) :
    (∀ st1, effCommitChange st e true = .ok st1 → st1 = st)
    ∧ (∀ err, effCommitChange st e true = .error err ↔
        effCommitChange st e false = .error err) := by
  constructor
  · intro st1 h
    cases e with
    | mk nm k =>
        cases k with
        | file p =>
            simp only [effCommitChange, fileCommitChange] at h
            cases hd : lookupT st.disk p with
            | none => rw [hd] at h; cases h
            | some t => rw [hd] at h; simp at h; exact h.symm
        | tru => simp [effCommitChange] at h; exact h.symm
        | fls => simp [effCommitChange] at h; exact h.symm
  · intro err
    cases e with
    | mk nm k =>
        cases k with
        | file p =>
            simp only [effCommitChange, fileCommitChange]
            cases hd : lookupT st.disk p with
            | none => simp
            | some t => simp
        | tru => simp [effCommitChange]
        | fls => simp [effCommitChange]

/-- Witness for `commit_change_dry_run_spec`: committing a file effect
over a missing artifact file errors identically in dry and real mode. -/
theorem commit_change_dry_run_spec_witness :
    effCommitChange { cache := [], disk := [] } (Eff.mk "f" (.file 0)) true =
      .error (.fileNotFound 0) ↔
    effCommitChange { cache := [], disk := [] } (Eff.mk "f" (.file 0)) false =
      .error (.fileNotFound 0) := by
  exact (commit_change_dry_run_spec { cache := [], disk := [] }
    (Eff.mk "f" (.file 0))).2 (.fileNotFound 0)

/-- The state of one cache entry file on disk while `Cache::update_file`
is in progress: either a fully written serialized entry, or a file that
has been created/truncated but whose contents are not (yet) a valid
serialization. -/
inductive EntryFile where
  | whole (t : Time)
  | truncated
deriving DecidableEq, Repr

/-- The cache directory as a map from hashed identity to entry file. -/
def CacheFs : Type := List (Nat × EntryFile)

/-- Replace-or-append update of the cache directory. -/
def setE : List (Nat × EntryFile) → Nat → EntryFile → List (Nat × EntryFile)
  | [], h, f => [(h, f)]
  | (k, u) :: rest, h, f =>
      if k == h then (h, f) :: rest else (k, u) :: setE rest h f

/-- First-match lookup in the cache directory. -/
def lookupE : List (Nat × EntryFile) → Nat → Option EntryFile
  | [], _ => Option.none
  | (k, f) :: rest, h => if k == h then some f else lookupE rest h

/-- One filesystem operation issued by `Cache::update_file`
(`src/cache.rs`, lines 336-354): `File::create` truncates the entry file
at the hashed path, and the subsequent serde write fills it with the
serialized entry. The source issues no rename and no write to a separate
location. -/
inductive FsOp where
  | create (h : Nat)
  | writeAll (h : Nat) (t : Time)
deriving DecidableEq, Repr

/-- Effect of one filesystem operation on the cache directory. -/
def applyOp (fs : CacheFs) : FsOp → CacheFs
  | .create h => setE fs h .truncated
  | .writeAll h t => setE fs h (.whole t)

/-- Effect of a sequence of filesystem operations. -/
def applyOps (fs : CacheFs) : List FsOp → CacheFs
  | [] => fs
  | op :: rest => applyOps (applyOp fs op) rest

/-- The hash `Cache::hash` applied to an artifact path: a deterministic
reduction of the identity to a cache filename (the concrete `DefaultHasher`
is abstracted to the identity on the already-abstract path ids; the only
property the code relies on is determinism). -/
def hashP (p : Nat) : Nat := p

/-- The operation sequence of `Cache::update_file(file, info)`: create
(truncate) the entry file at the hashed final path, then write the
serialized entry into it. -/
def cacheUpdateOps (p : Nat) (info : Time) : List FsOp :=
  [.create (hashP p), .writeAll (hashP p) info]

/-- Errors of `Cache::get_file` representable in this model: a cache
entry file exists but does not parse (`CacheEntryParseError`). -/
inductive CacheReadError where
  | corrupt (h : Nat)
deriving DecidableEq, Repr

/-- `Cache::get_file` restricted to the entry-file contents: absent file
is `Ok(None)`, a fully written file parses to its entry, a truncated file
is a parse error. -/
def readEntry (fs : CacheFs) (h : Nat) : Except CacheReadError (Option Time) :=
  match lookupE fs h with
  | Option.none => .ok Option.none
  | some (.whole t) => .ok (some t)
  | some .truncated => .error (.corrupt h)

/-- A helper equality for `setE` followed by `lookupE` at the same key. -/
theorem lookupE_setE (fs : List (Nat × EntryFile)) (h : Nat) (f : EntryFile) :
    lookupE (setE fs h f) h = some f := by
  induction fs with
  | nil => simp [setE, lookupE]
  | cons kv rest ih =>
      obtain ⟨k, u⟩ := kv
      by_cases hk : k = h
      · simp [setE, lookupE, hk]
      · have hne : (k == h) = false := by simp [beq_eq_false_iff_ne, hk]
        simp [setE, lookupE, hne, ih]

/-- Counterexample to claim C8: `Cache::update_file` does not write to a
separate location and rename; interrupting it after the truncating
`File::create` leaves the previously stored entry for path 5 (time
(7, 0)) unreadable — `get_file` reports a parse error instead of the
prior entry. -/
theorem cache_update_interrupted_corrupts_cex :
    readEntry
      (applyOps [(hashP 5, EntryFile.whole (Time.mk 7 0))]
        ((cacheUpdateOps 5 (Time.mk 9 0)).take 1)) (hashP 5) =
      .error (.corrupt 5)
    ∧ readEntry
        (applyOps [(hashP 5, EntryFile.whole (Time.mk 7 0))]
          ((cacheUpdateOps 5 (Time.mk 9 0)).take 1)) (hashP 5) ≠
        .ok (some (Time.mk 7 0)) := by
  constructor
  · rfl
  · intro h
    have h2 : Except.error (CacheReadError.corrupt 5) =
        Except.ok (some (Time.mk 7 0)) := by
      rw [← h]; rfl
    exact Except.noConfusion h2

/-- Amended claim C8: `update_file` writes the serialized entry directly
at the entry's final hashed path — a truncating create followed by a
write, with no separate location and no rename. A completed update
replaces the stored entry with the new one, but after the truncating
create and before the write the entry file is corrupt, so an interrupted
write does not leave the prior entry intact. -/
theorem cache_update_in_place_semantics (fs : CacheFs) (p : Nat) (info : Time) :
    readEntry (applyOps fs (cacheUpdateOps p info)) (hashP p) = .ok (some info)
    ∧ readEntry (applyOps fs ((cacheUpdateOps p info).take 1)) (hashP p) =
        .error (.corrupt (hashP p))
    ∧ ∀ op ∈ cacheUpdateOps p info,
        op = .create (hashP p) ∨ op = .writeAll (hashP p) info := by
  refine ⟨?_, ?_, ?_⟩
  · simp [cacheUpdateOps, applyOps, applyOp, readEntry, lookupE_setE]
  · simp [cacheUpdateOps, applyOps, applyOp, readEntry, lookupE_setE]
  · intro op hop
    simp [cacheUpdateOps] at hop
    rcases hop with h | h
    · exact Or.inl h
    · exact Or.inr h

/-- The `CargoMode` enum of `rust-build-std/src/targets/cargo.rs`. -/
inductive CargoMode where
  | release
  | debug
deriving DecidableEq, Repr

/-- `CargoMode::to_build_dir`: the build subdirectory under `target`. -/
def CargoMode.toBuildDir : CargoMode → String
  | .release => "release"
  | .debug => "debug"

/-- A parsed manifest value (the `toml::Value` shapes that
`deduce_effects` inspects). -/
inductive Toml where
  | str (s : String)
  | int (n : Int)
  | boolean (b : Bool)
  | arr (elems : List Toml)
  | table (fields : List (String × Toml))

/-- First-match lookup of a key in a manifest table. -/
def tblGet : List (String × Toml) → String → Option Toml
  | [], _ => Option.none
  | (k, v) :: rest, key => if k == key then some v else tblGet rest key

/-- `toml::Value::get` as used on the `package` and `workspace` values:
a key lookup that yields nothing when the value is not a table. -/
def pkgGet (v : Toml) (key : String) : Option Toml :=
  match v with
  | .table fields => tblGet fields key
  | _ => Option.none

/-- The `CargoTarget` error enum (`rust-build-std/src/targets/cargo.rs`).
Variants for unreadable or unparseable manifest bytes are unreachable in
this model, which starts from parsed manifest values. -/
inductive CargoError where
  | missingCargoToml (path : List String)
  | cargoTomlOpen (path : List String)
  | cargoTomlNotATable (path : List String)
  | cargoTomlEffectsDeduce (path : List String)
  | cargoTomlBinsType (path : List String)
  | cargoTomlBinType (path : List String)
  | cargoTomlMissingName (tbl : String) (path : List String)
  | cargoTomlNameType (what : String) (path : List String)
  | cargoTomlMissingMembers (path : List String)
  | cargoTomlMembersType (path : List String)
  | cargoTomlMemberType (path : List String)
deriving DecidableEq, Repr

/-- A deduced output effect: the `File` effect name and path built by
`deduce_effects` (the shared cache handle carried by the Rust value is
not part of the value model). -/
structure CargoEff where
  fname : String
  fpath : List String
deriving DecidableEq, Repr

/-- The `[[bin]]` loop of `deduce_effects`: each entry must be a table
with a string `name` field; the first offending entry aborts with the
corresponding error. -/
def binNames (cargoPath : List String) : List Toml → Except CargoError (List String)
  | [] => .ok []
  | b :: rest =>
      match b with
      | .table bt =>
          match tblGet bt "name" with
          | some (.str s) =>
              match binNames cargoPath rest with
              | .ok names => .ok (s :: names)
              | .error e => .error e
          | some _ => .error (.cargoTomlNameType "bin" cargoPath)
          | Option.none => .error (.cargoTomlMissingName "[bin]" cargoPath)
      | _ => .error (.cargoTomlBinType cargoPath)

/-- The `workspace.members` unwrapping loop of `deduce_effects`: every
member must be a string. -/
def memberStrings (cargoPath : List String) : List Toml → Except CargoError (List String)
  | [] => .ok []
  | m :: rest =>
      match m with
      | .str s =>
          match memberStrings cargoPath rest with
          | .ok names => .ok (s :: names)
          | .error e => .error e
      | _ => .error (.cargoTomlMemberType cargoPath)

/-- The name-deduction head of `deduce_effects`: a `bin` array yields one
name per entry; otherwise a `package` value yields its `name` field;
otherwise no name is produced at this level. -/
def deduceNames (cargoPath : List String) (tbl : List (String × Toml)) :
    Except CargoError (List String) :=
  match tblGet tbl "bin" with
  | some (.arr bins) => binNames cargoPath bins
  | some _ => .error (.cargoTomlBinsType cargoPath)
  | Option.none =>
      match tblGet tbl "package" with
      | some pk =>
          match pkgGet pk "name" with
          | some (.str s) => .ok [s]
          | some _ => .error (.cargoTomlNameType "package" cargoPath)
          | Option.none => .error (.cargoTomlMissingName "package" cargoPath)
      | Option.none => .ok []

/-- Result of effect deduction; `fuelOut` stands for exhausting the model
fuel that bounds the workspace recursion of the source. -/
inductive DeduceRes where
  | ok (effs : List CargoEff)
  | error (e : CargoError)
  | fuelOut
deriving DecidableEq, Repr

/-- First-match lookup of a manifest path in the modelled filesystem. -/
def lookupFs : List (List String × Toml) → List String → Option Toml
  | [], _ => Option.none
  | (k, v) :: rest, p => if k == p then some v else lookupFs rest p

/-- The workspace-member recursion loop of `deduce_effects`: run the
deduction on each member subdirectory in order, appending the resulting
effects; the first failing member aborts. -/
def deduceMembers (go : List String → DeduceRes) (path : List String) :
    List String → List CargoEff → DeduceRes
  | [], acc => .ok acc
  | m :: rest, acc =>
      match go (path ++ [m]) with
      | .fuelOut => .fuelOut
      | .error e => .error e
      | .ok effs => deduceMembers go path rest (acc ++ effs)

/-- `CargoTarget::deduce_effects` (`rust-build-std/src/targets/cargo.rs`,
lines 353-466): read and parse `<path>/Cargo.toml` (an absent manifest is
the open error of the source's `NotFound` branch); the top level must be
a table; deduce binary or package names; materialize each name `n` as a
`File` effect named `<name>_<n>` at `./target/<mode-subdir>/<n>`
(`PathBuf::from("./target")`, not rooted at `path`); recurse into any
`workspace.members`; fail with the effects-unknown error when the
collected list is empty. -/
def deduceEffects (fsm : List (List String × Toml)) (nm : String)
    (mode : CargoMode) : Nat → List String → DeduceRes
  | 0, _ => .fuelOut
  | n + 1, path =>
      match lookupFs fsm (path ++ ["Cargo.toml"]) with
      | Option.none => .error (.cargoTomlOpen (path ++ ["Cargo.toml"]))
      | some (.table tbl) =>
          match deduceNames (path ++ ["Cargo.toml"]) tbl with
          | .error e => .error e
          | .ok names =>
              let res := names.map (fun n =>
                CargoEff.mk (nm ++ "_" ++ n) ["./target", mode.toBuildDir, n])
              match tblGet tbl "workspace" with
              | Option.none =>
                  if res.isEmpty then
                    .error (.cargoTomlEffectsDeduce (path ++ ["Cargo.toml"]))
                  else .ok res
              | some ws =>
                  match pkgGet ws "members" with
                  | some (.arr members) =>
                      match memberStrings (path ++ ["Cargo.toml"]) members with
                      | .error e => .error e
                      | .ok sm =>
                          match deduceMembers (deduceEffects fsm nm mode n) path sm res with
                          | .fuelOut => .fuelOut
                          | .error e => .error e
                          | .ok res2 =>
                              if res2.isEmpty then
                                .error (.cargoTomlEffectsDeduce (path ++ ["Cargo.toml"]))
                              else .ok res2
                  | some _ => .error (.cargoTomlMembersType (path ++ ["Cargo.toml"]))
                  | Option.none => .error (.cargoTomlMissingMembers (path ++ ["Cargo.toml"]))
      | some _ => .error (.cargoTomlNotATable (path ++ ["Cargo.toml"]))

/-- Propagation of a per-effect property through the workspace-member
recursion loop. -/
theorem deduceMembers_shape (go : List String → DeduceRes) (path : List String)
    (P : CargoEff → Prop)
    (hgo : ∀ p1 res1, go p1 = .ok res1 → ∀ e ∈ res1, P e) :
    ∀ ms acc out, (∀ e ∈ acc, P e) →
      deduceMembers go path ms acc = .ok out → ∀ e ∈ out, P e := by
  intro ms
  induction ms with
  | nil =>
      intro acc out hacc h
      simp only [deduceMembers] at h
      cases h
      exact hacc
  | cons m rest ih =>
      intro acc out hacc h
      simp only [deduceMembers] at h
      cases hgo1 : go (path ++ [m]) with
      | fuelOut => rw [hgo1] at h; cases h
      | error e => rw [hgo1] at h; cases h
      | ok effs =>
          rw [hgo1] at h
          refine ih (acc ++ effs) out ?_ h
          intro e he
          rcases List.mem_append.1 he with h1 | h1
          · exact hacc e h1
          · exact hgo (path ++ [m]) effs hgo1 e h1

/-- Every effect produced by `deduce_effects` is named
`<target-name>_<bin-name>` and placed at
`./target/<mode-subdir>/<bin-name>`. -/
theorem deduce_shape (fsm : List (List String × Toml)) (nm : String)
    (mode : CargoMode) :
    ∀ n path res, deduceEffects fsm nm mode n path = .ok res →
      ∀ e ∈ res, ∃ b, e.fname = nm ++ "_" ++ b ∧
        e.fpath = ["./target", mode.toBuildDir, b] := by
  intro n
  induction n with
  | zero => intro path res h; cases h
  | succ n ih =>
      intro path res h
      simp only [deduceEffects] at h
      split at h
      · cases h
      · rename_i tbl
        split at h
        · cases h
        · rename_i names hn
          have hmap : ∀ e ∈ names.map (fun n =>
              CargoEff.mk (nm ++ "_" ++ n)
                ["./target", mode.toBuildDir, n]),
              ∃ b, e.fname = nm ++ "_" ++ b ∧
                e.fpath = ["./target", mode.toBuildDir, b] := by
            intro e he
            rcases List.mem_map.1 he with ⟨b, hb, hbe⟩
            exact ⟨b, by rw [← hbe], by rw [← hbe]⟩
          split at h
          · split at h
            · cases h
            · cases h
              exact hmap
          · rename_i ws hw
            split at h
            · rename_i members hm
              split at h
              · cases h
              · rename_i sm hms
                split at h
                · cases h
                · cases h
                · rename_i res2 hd
                  split at h
                  · cases h
                  · cases h
                    exact deduceMembers_shape
                      (deduceEffects fsm nm mode n) path _
                      (fun p1 res1 hq => ih p1 res1 hq)
                      sm _ _ hmap hd
            · cases h
            · cases h
      · cases h

/-- A successful deduction never returns an empty effect list: both
return points of `deduce_effects` are guarded by the emptiness check
that raises the effects-unknown error. -/
theorem deduce_nonempty (fsm : List (List String × Toml)) (nm : String)
    (mode : CargoMode) (n : Nat) (path : List String) (res : List CargoEff)
    (h : deduceEffects fsm nm mode n path = .ok res) : res ≠ [] := by
  cases n with
  | zero => cases h
  | succ n =>
      simp only [deduceEffects] at h
      split at h
      · cases h
      · split at h
        · cases h
        · split at h
          · split at h
            · cases h
            · rename_i hemp
              cases h
              intro hnil
              rw [hnil] at hemp
              simp at hemp
          · split at h
            · split at h
              · cases h
              · split at h
                · cases h
                · cases h
                · split at h
                  · cases h
                  · rename_i hemp
                    cases h
                    intro hnil
                    rw [hnil] at hemp
                    simp at hemp
            · cases h
            · cases h
      · cases h

/-- A workspace manifest set mirroring the spec's workspace scenario:
the project at `proj` is a workspace with members `p` (a package named
`p`) and `q` (declaring one binary `qbin`). -/
def cargoFsExample : List (List String × Toml) :=
  [ (["proj", "Cargo.toml"],
      Toml.table [("workspace",
        Toml.table [("members", Toml.arr [Toml.str "p", Toml.str "q"])])]),
    (["proj", "p", "Cargo.toml"],
      Toml.table [("package", Toml.table [("name", Toml.str "p")])]),
    (["proj", "q", "Cargo.toml"],
      Toml.table [("bin", Toml.arr [Toml.table [("name", Toml.str "qbin")]])]) ]

/-- Counterexample to claim C9: deducing effects for the `proj` workspace
succeeds, but the deduced paths start with the literal segment
`./target` (from `PathBuf::from("./target")` in `deduce_effects`), not
with the project directory `proj` as the claim's
`<path>/target/<mode-subdir>/<bin-name>` requires. -/
theorem deduce_effects_path_not_under_project_cex :
    deduceEffects cargoFsExample "t" .debug 5 ["proj"] =
      .ok [CargoEff.mk "t_p" ["./target", "debug", "p"],
           CargoEff.mk "t_qbin" ["./target", "debug", "qbin"]]
    ∧ (["./target", "debug", "p"] : List String) ≠
        ["proj", "target", "debug", "p"] := by
  exact ⟨by decide, by decide⟩

/-- Amended claim C9: every effect deduced by `CargoTarget` effect
deduction is a file effect at `./target/<mode-subdir>/<bin-name>`
relative to the working directory — the project path is not prefixed —
with `<mode-subdir>` equal to `debug` or `release` according to the
mode; a successful deduction never yields an empty effect list, and a
manifest table with no `bin`, `package` or `workspace` key fails with
the effects-unknown error. -/
theorem deduce_effects_paths_and_nonempty :
    (∀ fsm nm mode n path res,
        deduceEffects fsm nm mode n path = .ok res →
          res ≠ [] ∧ ∀ e ∈ res, ∃ b,
            e.fpath = ["./target", CargoMode.toBuildDir mode, b])
    ∧ (∀ (fsm : List (List String × Toml)) nm mode n path tbl,
        lookupFs fsm (path ++ ["Cargo.toml"]) = some (.table tbl) →
        tblGet tbl "bin" = Option.none →
        tblGet tbl "package" = Option.none →
        tblGet tbl "workspace" = Option.none →
        deduceEffects fsm nm mode (n + 1) path =
          .error (.cargoTomlEffectsDeduce (path ++ ["Cargo.toml"])))
    ∧ CargoMode.toBuildDir .debug = "debug"
    ∧ CargoMode.toBuildDir .release = "release" := by
  refine ⟨?_, ?_, rfl, rfl⟩
  · intro fsm nm mode n path res h
    refine ⟨deduce_nonempty fsm nm mode n path res h, ?_⟩
    intro e he
    rcases deduce_shape fsm nm mode n path res h e he with ⟨b, _, hp⟩
    exact ⟨b, hp⟩
  · intro fsm nm mode n path tbl hfs hbin hpkg hws
    simp [deduceEffects, hfs, deduceNames, hbin, hpkg, hws]

/-- Witness for `deduce_effects_paths_and_nonempty` at the concrete
workspace example: both deduced effects sit under `./target/debug`. -/
theorem deduce_effects_paths_and_nonempty_witness :
    [CargoEff.mk "t_p" ["./target", "debug", "p"],
     CargoEff.mk "t_qbin" ["./target", "debug", "qbin"]] ≠ [] ∧
    ∀ e ∈ [CargoEff.mk "t_p" ["./target", "debug", "p"],
           CargoEff.mk "t_qbin" ["./target", "debug", "qbin"]], ∃ b,
      e.fpath = ["./target", CargoMode.toBuildDir .debug, b] := by
  exact deduce_effects_paths_and_nonempty.1 cargoFsExample "t" .debug 5 ["proj"]
    [CargoEff.mk "t_p" ["./target", "debug", "p"],
     CargoEff.mk "t_qbin" ["./target", "debug", "qbin"]] (by decide)

/-- Claim C10: every effect produced by `CargoTarget` effect deduction
for a target named `N` and a deduced binary or package `B` is named
`N_B` — the target name, an underscore, then the binary name — also for
effects found by recursing into workspace members (the recursion passes
the top-level target name down unchanged). -/
theorem deduce_effects_names_composite (fsm : List (List String × Toml))
    (nm : String) (mode : CargoMode) (n : Nat) (path : List String)
    (res : List CargoEff) (h : deduceEffects fsm nm mode n path = .ok res) :
    ∀ e ∈ res, ∃ b, e.fname = nm ++ "_" ++ b ∧
      e.fpath = ["./target", CargoMode.toBuildDir mode, b] := by
  exact deduce_shape fsm nm mode n path res h

/-- Witness for `deduce_effects_names_composite`: in the workspace
example the deduced member effect keeps the composite name `t_qbin`. -/
theorem deduce_effects_names_composite_witness :
    ∃ b, (CargoEff.mk "t_qbin" ["./target", "debug", "qbin"]).fname =
        "t" ++ "_" ++ b
      ∧ (CargoEff.mk "t_qbin" ["./target", "debug", "qbin"]).fpath =
        ["./target", CargoMode.toBuildDir .debug, b] := by
  exact deduce_effects_names_composite cargoFsExample "t" .debug 5 ["proj"]
    [CargoEff.mk "t_p" ["./target", "debug", "p"],
     CargoEff.mk "t_qbin" ["./target", "debug", "qbin"]] (by decide)
    (CargoEff.mk "t_qbin" ["./target", "debug", "qbin"]) (by decide)

/-- An `EffectView` (`rust-build/src/view.rs`): a dependency on the
target with the given id, restricted by a filter pipeline. Targets are
identified by their index in the graph, standing for the Rust borrow of
the viewed target. -/
structure EffectView where
  tgt     : Nat
  filters : List ViewFilter
deriving DecidableEq, Repr

/-- The `TargetError` enum of `rust-build/src/errors.rs`. The boxed
source errors carried by `HasChangedError` and `CommitError` are the
`File` effect errors of this model; `DependencyBuildError` is declared in
the source but never constructed by the default orchestration. -/
inductive TargetError where
  | dependencyBuildError (name : String)
  | hasChangedError (effectName : String) (err : EffError)
  | buildError (name : String)
  | commitError (effectName : String) (err : EffError)
deriving DecidableEq, Repr

/-- One node of the target graph: its name, dependency views, owned
effects (the `Named` + `Target` capabilities of `rust-build/src/spec.rs`),
and the outcome of its child-provided `build`: `buildResult = some e`
means `build` fails with `e`; on success a real (non-dry) build writes
the given last-modified times to disk for its artifact paths. -/
structure TargetData where
  tname       : String
  deps        : List EffectView
  effects     : List Eff
  buildResult : Option TargetError
  buildWrites : List (Nat × Time)
deriving DecidableEq, Repr

/-- A target graph: target data indexed by target id. -/
def Graph : Type := Nat → TargetData

/-- The observable calls of one engine run: an invocation of a target's
child-provided `build`, or an invocation of `commit_change` on the
target's effect at the given index. -/
inductive Event where
  | buildE (tgt : Nat)
  | commitE (tgt : Nat) (idx : Nat)
deriving DecidableEq, Repr

/-- Result of `Target::make`: success or error, with the final engine
state and the events of the run; `fuelOut` stands for exhausting the
model fuel that bounds the source's unbounded recursion. -/
inductive MakeRes where
  | ok (st : EngineState) (ev : List Event)
  | error (e : TargetError) (st : EngineState) (ev : List Event)
  | fuelOut
deriving DecidableEq, Repr

/-- Result of `Target::build_deps`: the staleness flag it returns on
success, plus state and events as in `MakeRes`. -/
inductive DepsRes where
  | ok (outdated : Bool) (st : EngineState) (ev : List Event)
  | error (e : TargetError) (st : EngineState) (ev : List Event)
  | fuelOut
deriving DecidableEq, Repr

/-- The events of a `make` result (`fuelOut` stands for a run that never
returns, so it has no observable completed call list). -/
def MakeRes.events : MakeRes → List Event
  | .ok _ ev => ev
  | .error _ _ ev => ev
  | .fuelOut => []

/-- The events of a `build_deps` result. -/
def DepsRes.events : DepsRes → List Event
  | .ok _ _ ev => ev
  | .error _ _ ev => ev
  | .fuelOut => []

/-- The per-view staleness loop of `Target::build_deps`
(`rust-build/src/spec.rs`, lines 206-211): for each effect visible
through the view, OR its `has_changed` into the flag, converting the
first effect failure into `TargetError::HasChangedError` with that
effect's name. -/
def viewHasChanged (st : EngineState) : List Eff → Except TargetError Bool
  | [] => .ok false
  | e :: rest =>
      match effHasChanged st e with
      | .error err => .error (.hasChangedError e.ename err)
      | .ok b =>
          match viewHasChanged st rest with
          | .error te => .error te
          | .ok b2 => .ok (b || b2)

/-- `Target::commit` (`rust-build/src/spec.rs`, lines 225-233): invoke
`commit_change` on each own effect in insertion order; the first failing
effect aborts with `TargetError::CommitError` carrying its name, leaving
the remaining effects uncommitted. Every invocation — including the
failing one — is recorded as a commit event of the owning target. -/
def commitList (T : Nat) (dry : Bool) :
    List Eff → Nat → EngineState → Except (TargetError × EngineState × List Event) (EngineState × List Event)
  | [], _, st => .ok (st, [])
  | e :: rest, i, st =>
      match effCommitChange st e dry with
      | .error err => .error (.commitError e.ename err, st, [.commitE T i])
      | .ok st1 =>
          match commitList T dry rest (i + 1) st1 with
          | .ok (st2, ev) => .ok (st2, .commitE T i :: ev)
          | .error (te, st2, ev) => .error (te, st2, .commitE T i :: ev)

/-- Disk writes performed by a successful real build. -/
def applyWrites (st : EngineState) : List (Nat × Time) → EngineState
  | [] => st
  | (p, t) :: rest => applyWrites { st with disk := setT st.disk p t } rest

/-- The view loop of `Target::build_deps` (`rust-build/src/spec.rs`,
lines 198-216): for each dependency view, first `make` the viewed target
(propagating its error), then OR the staleness of the effects visible
through the view into the accumulator. `mk` is the recursive `make` at
the current fuel. -/
def depsList (mk : Nat → EngineState → MakeRes) (g : Graph) :
    List EffectView → Bool → EngineState → DepsRes
  | [], outd, st => .ok outd st []
  | v :: rest, outd, st =>
      match mk v.tgt st with
      | .fuelOut => .fuelOut
      | .error e st1 ev1 => .error e st1 ev1
      | .ok st1 ev1 =>
          match viewHasChanged st1 (viewIterate (g v.tgt).effects v.filters) with
          | .error te => .error te st1 ev1
          | .ok b =>
              match depsList mk g rest (outd || b) st1 with
              | .fuelOut => .fuelOut
              | .error e st2 ev2 => .error e st2 (ev1 ++ ev2)
              | .ok o st2 ev2 => .ok o st2 (ev1 ++ ev2)

/-- `Target::make` (`rust-build/src/spec.rs`, lines 169-181): run
`build_deps` with the staleness accumulator seeded by `force`; if the
result is stale, invoke the child-provided `build` and, on its success,
`commit`; propagate any error without committing. Fuel decreases at each
nested `make`, standing for the source's unbounded call stack. -/
def makeF (g : Graph) (force dry : Bool) : Nat → Nat → EngineState → MakeRes
  | 0, _, _ => .fuelOut
  | n + 1, T, st =>
      match depsList (makeF g force dry n) g (g T).deps force st with
      | .fuelOut => .fuelOut
      | .error e st1 ev1 => .error e st1 ev1
      | .ok outdated st1 ev1 =>
          if outdated then
            match (g T).buildResult with
            | some e => .error e st1 (ev1 ++ [.buildE T])
            | Option.none =>
                let st2 := if dry then st1 else applyWrites st1 (g T).buildWrites
                match commitList T dry (g T).effects 0 st2 with
                | .ok (st3, evc) => .ok st3 (ev1 ++ .buildE T :: evc)
                | .error (te, st3, evc) => .error te st3 (ev1 ++ .buildE T :: evc)
          else .ok st1 ev1

/-- A `build_deps` run that succeeds with no events leaves the state
unchanged, provided every nested `make` with no events does. -/
theorem depsList_nil_state (mk : Nat → EngineState → MakeRes) (g : Graph)
    (hmk : ∀ T st st1 ev, mk T st = .ok st1 ev → ev = [] → st1 = st) :
    ∀ views outd st o st1,
      depsList mk g views outd st = .ok o st1 [] → st1 = st := by
  intro views
  induction views with
  | nil =>
      intro outd st o st1 h
      simp only [depsList] at h
      cases h
      rfl
  | cons v rest ih =>
      intro outd st o st1 h
      simp only [depsList] at h
      split at h
      · cases h
      · cases h
      · rename_i st2 ev2 h1
        split at h
        · cases h
        · rename_i b h2
          split at h
          · cases h
          · cases h
          · rename_i o3 st3 ev3 h3
            injection h with ho hst hev
            rcases List.append_eq_nil.1 hev with ⟨he2, he3⟩
            rw [he2] at h1
            rw [he3] at h3
            have hst2 : st2 = st := hmk v.tgt st st2 [] h1 rfl
            have hst3 : st3 = st2 := ih (outd || b) st2 o3 st3 h3
            rw [← hst, hst3, hst2]

/-- A `make` run that succeeds with no events leaves the state
unchanged: success with no events means nothing was stale anywhere in
the traversal, so no build and no commit ran. -/
theorem makeF_nil_state (g : Graph) (F D : Bool) :
    ∀ n T st st1 ev, makeF g F D n T st = .ok st1 ev → ev = [] → st1 = st := by
  intro n
  induction n with
  | zero => intro T st st1 ev h; cases h
  | succ n ih =>
      intro T st st1 ev h hev
      subst hev
      simp only [makeF] at h
      split at h
      · cases h
      · cases h
      · rename_i outd st2 ev2 h1
        split at h
        · split at h
          · cases h
          · rename_i h2
            split at h
            · rename_i st3 evc h3
              injection h with hst hev2
              rcases List.append_eq_nil.1 hev2 with ⟨_, hc⟩
              cases hc
            · cases h
        · rename_i houtd
          injection h with hst hev2
          rw [hev2] at h1
          rw [← hst]
          exact depsList_nil_state (makeF g F D n) g ih (g T).deps F st outd st2 h1

/-- Amended claim C1: if a run of `make` succeeds while invoking `build`
on zero targets and `commit_change` on zero effects (an empty event
list), then a second run from the resulting state — that is, with no
external changes in between — again succeeds with zero builds and zero
commits. (A successful first run that did build does not quiesce in
general; see the counterexample.) -/
theorem make_noop_after_quiescent_run (g : Graph) (F D : Bool) (n T : Nat)
    (st st1 : EngineState) (h : makeF g F D n T st = .ok st1 []) :
    makeF g F D n T st1 = .ok st1 [] := by
  have hst : st1 = st := makeF_nil_state g F D n T st st1 [] h rfl
  rw [hst] at h ⊢
  exact h

/-- A one-target graph with no dependencies and no effects. -/
def soloGraph : Graph := fun _ =>
  TargetData.mk "solo" [] [] Option.none []

/-- The empty engine state. -/
def emptyState : EngineState := { cache := [], disk := [] }

/-- Witness for `make_noop_after_quiescent_run`: on a dependency-free
target nothing is stale, the run is quiet, and the follow-up run is
identical. -/
theorem make_noop_after_quiescent_run_witness :
    makeF soloGraph false false 1 0 emptyState = .ok emptyState [] := by
  exact make_noop_after_quiescent_run soloGraph false false 1 0 emptyState
    emptyState (by decide)

/-- The graph refuting claim C1: target 0 (`A`) owns one file effect on
artifact 0 and has no dependencies; target 1 (`B`) depends on a view of
all of `A`'s effects and owns nothing. -/
def rebuildGraph : Graph := fun i =>
  match i with
  | 0 => TargetData.mk "A" [] [Eff.mk "f" (.file 0)] Option.none []
  | 1 => TargetData.mk "B" [EffectView.mk 0 [ViewFilter.all]] [] Option.none []
  | _ => TargetData.mk "other" [] [] Option.none []

/-- The starting state for `rebuildGraph`: the artifact file exists on
disk and the cache is empty. -/
def rebuildState : EngineState := { cache := [], disk := [(0, Time.mk 5 0)] }

/-- Counterexample to claim C1: `make` on target `B` succeeds and builds
`B` (its viewed file effect has no cache entry), yet the final state
equals the starting state — `A` was never stale, so `A` never committed
its file effect. The second run, from that unchanged state, is the very
same computation, so it again invokes `build` on `B`: the second run
does not invoke `build` on zero targets. -/
theorem make_second_run_rebuilds_cex :
    makeF rebuildGraph false false 10 1 rebuildState =
      .ok rebuildState [Event.buildE 1]
    ∧ Event.buildE 1 ∈
        (makeF rebuildGraph false false 10 1 rebuildState).events := by
  exact ⟨by decide, by decide⟩

/-- The two-target cyclic graph: target 0 depends on a view of target 1
and target 1 depends on a view of target 0. -/
def cycleGraph : Graph := fun i =>
  match i with
  | 0 => TargetData.mk "A" [EffectView.mk 1 [ViewFilter.all]] [] Option.none []
  | 1 => TargetData.mk "B" [EffectView.mk 0 [ViewFilter.all]] [] Option.none []
  | _ => TargetData.mk "other" [] [] Option.none []

/-- Claim C4 evaluated on the code: on the two-target cycle, `make` on
target 0 exhausts every amount of fuel — the source recursion
`make → build_deps → make` has no cycle check (no `DependencyCycle`
variant exists in `TargetError`), so the run never terminates, never
reports a cycle error, and never completes a build. -/
theorem make_cycle_never_terminates (F D : Bool) :
    ∀ (n : Nat) (st : EngineState),
      makeF cycleGraph F D n 0 st = .fuelOut
      ∧ makeF cycleGraph F D n 1 st = .fuelOut := by
  intro n
  induction n with
  | zero => intro st; exact ⟨rfl, rfl⟩
  | succ n ih =>
      intro st
      constructor
      · simp only [makeF]
        have h1 : makeF cycleGraph F D n 1 st = .fuelOut := (ih st).2
        simp [cycleGraph, depsList, h1]
      · simp only [makeF]
        have h0 : makeF cycleGraph F D n 0 st = .fuelOut := (ih st).1
        simp [cycleGraph, depsList, h0]

/-- The staleness accumulator of `build_deps` only ever ORs values in,
so a run seeded with `true` (the `force` flag) returns `true`. -/
theorem depsList_true (mk : Nat → EngineState → MakeRes) (g : Graph) :
    ∀ views st o st1 ev,
      depsList mk g views true st = .ok o st1 ev → o = true := by
  intro views
  induction views with
  | nil =>
      intro st o st1 ev h
      simp only [depsList] at h
      injection h with ho hst hev
      exact ho.symm
  | cons v rest ih =>
      intro st o st1 ev h
      simp only [depsList] at h
      split at h
      · cases h
      · cases h
      · rename_i st2 ev2 h1
        split at h
        · cases h
        · rename_i b h2
          split at h
          · cases h
          · cases h
          · rename_i o3 st3 ev3 h3
            injection h with ho hst hev
            rw [← ho]
            rw [show (true || b) = true from rfl] at h3
            exact ih st2 o3 st3 ev3 h3

/-- Each view processed by a successful `build_deps` had its target made
successfully, with events that embed into the overall event list. -/
theorem depsList_ok_each (mk : Nat → EngineState → MakeRes) (g : Graph) :
    ∀ views outd st o st1 ev,
      depsList mk g views outd st = .ok o st1 ev →
      ∀ v ∈ views, ∃ stv stv1 evv,
        mk v.tgt stv = .ok stv1 evv ∧ evv.Sublist ev := by
  intro views
  induction views with
  | nil =>
      intro outd st o st1 ev h v hv
      cases hv
  | cons v0 rest ih =>
      intro outd st o st1 ev h v hv
      simp only [depsList] at h
      split at h
      · cases h
      · cases h
      · rename_i st2 ev2 h1
        split at h
        · cases h
        · rename_i b h2
          split at h
          · cases h
          · cases h
          · rename_i o3 st3 ev3 h3
            injection h with ho hst hev
            rcases List.mem_cons.1 hv with hveq | hvrest
            · refine ⟨st, st2, ev2, by rw [hveq]; exact h1, ?_⟩
              rw [← hev]
              exact List.sublist_append_left ev2 ev3
            · rcases ih (outd || b) st2 o3 st3 ev3 h3 v hvrest with
                ⟨stv, stv1, evv, hmkv, hsub⟩
              refine ⟨stv, stv1, evv, hmkv, ?_⟩
              rw [← hev]
              exact hsub.trans (List.sublist_append_right ev2 ev3)

/-- The dependency edge relation of a graph: `T` has a view on `U`. -/
def EdgeG (g : Graph) (T U : Nat) : Prop :=
  ∃ v ∈ (g T).deps, v.tgt = U

/-- Amended claim C3: a run with `force = true` that succeeds invokes
`build` at least once on every target reachable from the root through
dependency views. (It is not "exactly once per distinct target": the
default orchestration does not memoize, so a target reachable through
several dependency views is built once per path that reaches it; see the
counterexample.) -/
theorem force_builds_all_reachable (g : Graph) (D : Bool) :
    ∀ n T st st1 ev U, makeF g true D n T st = .ok st1 ev →
      Relation.ReflTransGen (EdgeG g) T U → Event.buildE U ∈ ev := by
  intro n
  induction n with
  | zero => intro T st st1 ev U h hr; cases h
  | succ n ih =>
      intro T st st1 ev U h hr
      simp only [makeF] at h
      split at h
      · cases h
      · cases h
      · rename_i outd st2 ev2 h1
        have houtd : outd = true := depsList_true (makeF g true D n) g
          (g T).deps st outd st2 ev2 h1
        subst houtd
        rw [if_pos rfl] at h
        split at h
        · cases h
        · rename_i h2
          split at h
          · rename_i st3 evc h3
            injection h with hst hev
            rcases hr.cases_head with hTU | ⟨W, hTW, hWU⟩
            · rw [← hev, ← hTU]
              exact List.mem_append_right ev2 (List.mem_cons_self _ _)
            · rcases hTW with ⟨v, hv, hveq⟩
              rcases depsList_ok_each (makeF g true D n) g (g T).deps true st
                  true st2 ev2 h1 v hv with ⟨stv, stv1, evv, hmkv, hsub⟩
              rw [hveq] at hmkv
              have hbuild : Event.buildE U ∈ evv :=
                ih W stv stv1 evv U hmkv hWU
              rw [← hev]
              exact List.mem_append_left _ (hsub.subset hbuild)
          · cases h

/-- The diamond-shaped graph sharing one target through two views:
target 3 depends on views of targets 1 and 2, and both of those depend
on a view of target 0. -/
def diamondGraph : Graph := fun i =>
  match i with
  | 0 => TargetData.mk "A" [] [] Option.none []
  | 1 => TargetData.mk "B" [EffectView.mk 0 [ViewFilter.all]] [] Option.none []
  | 2 => TargetData.mk "C" [EffectView.mk 0 [ViewFilter.all]] [] Option.none []
  | 3 => TargetData.mk "D"
      [EffectView.mk 1 [ViewFilter.all], EffectView.mk 2 [ViewFilter.all]]
      [] Option.none []
  | _ => TargetData.mk "other" [] [] Option.none []

/-- Counterexample to claim C3: running the diamond graph's root with
`force = true` succeeds but invokes `build` on target 0 twice — once per
dependency view through which it is reachable — so `build` is neither
"at most once per distinct target" nor "exactly once" under force. -/
theorem force_shared_target_built_twice_cex :
    makeF diamondGraph true false 10 3 emptyState =
      .ok emptyState
        [Event.buildE 0, Event.buildE 1, Event.buildE 0,
         Event.buildE 2, Event.buildE 3]
    ∧ (makeF diamondGraph true false 10 3 emptyState).events.count
        (Event.buildE 0) = 2 := by
  exact ⟨by decide, by decide⟩

/-- Witness for `force_builds_all_reachable`: in the diamond graph under
force, target 0 — reachable from root 3 through target 1 — is built. -/
theorem force_builds_all_reachable_witness :
    Event.buildE 0 ∈
      [Event.buildE 0, Event.buildE 1, Event.buildE 0,
       Event.buildE 2, Event.buildE 3] := by
  refine force_builds_all_reachable diamondGraph false 10 3 emptyState
    emptyState
    [Event.buildE 0, Event.buildE 1, Event.buildE 0,
     Event.buildE 2, Event.buildE 3] 0 (by decide) ?_
  refine Relation.ReflTransGen.head
    ⟨EffectView.mk 1 [ViewFilter.all], by decide, rfl⟩ ?_
  exact Relation.ReflTransGen.single
    ⟨EffectView.mk 0 [ViewFilter.all], by decide, rfl⟩

/-- The events of a `Target::commit` result. -/
def commitEventsOf :
    Except (TargetError × EngineState × List Event) (EngineState × List Event) →
    List Event
  | .ok (_, ev) => ev
  | .error (_, _, ev) => ev

/-- Every event recorded by `Target::commit` on target `T` is a commit
event of `T`. -/
theorem commitList_events (T : Nat) (dry : Bool) :
    ∀ effs i st x, x ∈ commitEventsOf (commitList T dry effs i st) →
      ∃ j, x = Event.commitE T j := by
  intro effs
  induction effs with
  | nil =>
      intro i st x hx
      simp [commitList, commitEventsOf] at hx
  | cons e rest ih =>
      intro i st x hx
      simp only [commitList] at hx
      split at hx
      · simp only [commitEventsOf] at hx
        rcases List.mem_singleton.1 hx with hx1
        exact ⟨i, hx1⟩
      · rename_i st1 hc
        split at hx
        · rename_i st2 ev hc2
          simp only [commitEventsOf] at hx
          rcases List.mem_cons.1 hx with hx1 | hx1
          · exact ⟨i, hx1⟩
          · have := ih (i + 1) st1 x
            rw [hc2] at this
            exact this hx1
        · rename_i te st2 ev hc2
          simp only [commitEventsOf] at hx
          rcases List.mem_cons.1 hx with hx1 | hx1
          · exact ⟨i, hx1⟩
          · have := ih (i + 1) st1 x
            rw [hc2] at this
            exact this hx1

/-- The events of a `build_deps` run are a concatenation of event lists,
each produced by the nested `make` of one of the processed views. -/
theorem depsList_events_decomp (mk : Nat → EngineState → MakeRes) (g : Graph) :
    ∀ views outd st, ∃ L : List (List Event),
      (depsList mk g views outd st).events = L.flatten
      ∧ ∀ l ∈ L, ∃ v ∈ views, ∃ stv, l = (mk v.tgt stv).events := by
  intro views
  induction views with
  | nil =>
      intro outd st
      exact ⟨[], rfl, by intro l hl; cases hl⟩
  | cons v rest ih =>
      intro outd st
      cases h1 : mk v.tgt st with
      | fuelOut =>
          refine ⟨[], ?_, by intro l hl; cases hl⟩
          simp [depsList, h1, DepsRes.events]
      | error e st1 ev1 =>
          refine ⟨[ev1], ?_, ?_⟩
          · simp [depsList, h1, DepsRes.events]
          · intro l hl
            rcases List.mem_singleton.1 hl with rfl
            exact ⟨v, List.mem_cons_self v rest, st, by rw [h1]; rfl⟩
      | ok st1 ev1 =>
          cases h2 : viewHasChanged st1 (viewIterate (g v.tgt).effects v.filters) with
          | error te =>
              refine ⟨[ev1], ?_, ?_⟩
              · simp [depsList, h1, h2, DepsRes.events]
              · intro l hl
                rcases List.mem_singleton.1 hl with rfl
                exact ⟨v, List.mem_cons_self v rest, st, by rw [h1]; rfl⟩
          | ok b =>
              rcases ih (outd || b) st1 with ⟨L2, hjoin, hmem⟩
              cases h3 : depsList mk g rest (outd || b) st1 with
              | fuelOut =>
                  refine ⟨[], ?_, by intro l hl; cases hl⟩
                  simp [depsList, h1, h2, h3, DepsRes.events]
              | error e st2 ev2 =>
                  refine ⟨ev1 :: L2, ?_, ?_⟩
                  · rw [h3] at hjoin
                    simp only [DepsRes.events] at hjoin
                    simp [depsList, h1, h2, h3, DepsRes.events, List.flatten,
                      ← hjoin]
                  · intro l hl
                    rcases List.mem_cons.1 hl with rfl | hl2
                    · exact ⟨v, List.mem_cons_self v rest, st, by rw [h1]; rfl⟩
                    · rcases hmem l hl2 with ⟨v2, hv2, stv, hlv⟩
                      exact ⟨v2, List.mem_cons_of_mem v hv2, stv, hlv⟩
              | ok o2 st2 ev2 =>
                  refine ⟨ev1 :: L2, ?_, ?_⟩
                  · rw [h3] at hjoin
                    simp only [DepsRes.events] at hjoin
                    simp [depsList, h1, h2, h3, DepsRes.events, List.flatten,
                      ← hjoin]
                  · intro l hl
                    rcases List.mem_cons.1 hl with rfl | hl2
                    · exact ⟨v, List.mem_cons_self v rest, st, by rw [h1]; rfl⟩
                    · rcases hmem l hl2 with ⟨v2, hv2, stv, hlv⟩
                      exact ⟨v2, List.mem_cons_of_mem v hv2, stv, hlv⟩

/-- If every nested `make` call turns a commit event of a target into a
build event of the same target in its own event list, so does
`build_deps` over its concatenated events. -/
theorem depsList_commit_build (mk : Nat → EngineState → MakeRes) (g : Graph)
    (hmk : ∀ Tt stt X i, Event.commitE X i ∈ (mk Tt stt).events →
      Event.buildE X ∈ (mk Tt stt).events) :
    ∀ views outd st X i,
      Event.commitE X i ∈ (depsList mk g views outd st).events →
      Event.buildE X ∈ (depsList mk g views outd st).events := by
  intro views outd st X i hx
  rcases depsList_events_decomp mk g views outd st with ⟨L, hjoin, hmem⟩
  rw [hjoin] at hx ⊢
  rcases List.mem_flatten.1 hx with ⟨l, hl, hxl⟩
  rcases hmem l hl with ⟨v, hv, stv, hlv⟩
  subst hlv
  exact List.mem_flatten.2 ⟨_, hl, hmk v.tgt stv X i hxl⟩

/-- Any build event in the events of `build_deps` originates in the
nested `make` of one of the processed views, so any per-call property of
build events transfers. -/
theorem depsList_build_origin (mk : Nat → EngineState → MakeRes) (g : Graph)
    (Q : Nat → Nat → Prop)
    (hmk : ∀ Tt stt X, Event.buildE X ∈ (mk Tt stt).events → Q Tt X) :
    ∀ views outd st X,
      Event.buildE X ∈ (depsList mk g views outd st).events →
      ∃ v ∈ views, Q v.tgt X := by
  intro views outd st X hx
  rcases depsList_events_decomp mk g views outd st with ⟨L, hjoin, hmem⟩
  rw [hjoin] at hx
  rcases List.mem_flatten.1 hx with ⟨l, hl, hxl⟩
  rcases hmem l hl with ⟨v, hv, stv, hlv⟩
  subst hlv
  exact ⟨v, hv, hmk v.tgt stv X hxl⟩

/-- In any `make` run, a commit event of a target only appears alongside
a build event of the same target: commit is only ever invoked right
after that target's successful build. -/
theorem makeF_commit_build (g : Graph) (F D : Bool) :
    ∀ n T st X i, Event.commitE X i ∈ (makeF g F D n T st).events →
      Event.buildE X ∈ (makeF g F D n T st).events := by
  intro n
  induction n with
  | zero =>
      intro T st X i hx
      simp [makeF, MakeRes.events] at hx
  | succ n ih =>
      intro T st X i hx
      cases hdec : depsList (makeF g F D n) g (g T).deps F st with
      | fuelOut =>
          simp only [makeF, hdec] at hx
          simp [MakeRes.events] at hx
      | error e st2 ev2 =>
          simp only [makeF, hdec, MakeRes.events] at hx ⊢
          have hev : (depsList (makeF g F D n) g (g T).deps F st).events = ev2 := by
            rw [hdec]
            rfl
          rw [← hev] at hx ⊢
          exact depsList_commit_build (makeF g F D n) g ih (g T).deps F st X i hx
      | ok outd st2 ev2 =>
          simp only [makeF, hdec] at hx ⊢
          have hev : (depsList (makeF g F D n) g (g T).deps F st).events = ev2 := by
            rw [hdec]
            rfl
          by_cases houtd : outd = true
          · rw [if_pos houtd] at hx ⊢
            cases hbr : (g T).buildResult with
            | some e =>
                simp only [hbr] at hx
                simp only [MakeRes.events] at hx ⊢
                rcases List.mem_append.1 hx with hx1 | hx1
                · rw [← hev] at hx1
                  refine List.mem_append_left _ ?_
                  rw [← hev]
                  exact depsList_commit_build (makeF g F D n) g ih
                    (g T).deps F st X i hx1
                · rcases List.mem_singleton.1 hx1 with hx2
                  simp at hx2
            | none =>
                simp only [hbr] at hx
                cases hcl : commitList T D (g T).effects 0
                    (if D = true then st2 else applyWrites st2 (g T).buildWrites) with
                | ok p =>
                    obtain ⟨st3, evc⟩ := p
                    simp only [hcl] at hx
                    simp only [MakeRes.events] at hx ⊢
                    rcases List.mem_append.1 hx with hx1 | hx1
                    · rw [← hev] at hx1
                      refine List.mem_append_left _ ?_
                      rw [← hev]
                      exact depsList_commit_build (makeF g F D n) g ih
                        (g T).deps F st X i hx1
                    · rcases List.mem_cons.1 hx1 with hx2 | hx2
                      · simp at hx2
                      · have hce : Event.commitE X i ∈
                            commitEventsOf (commitList T D (g T).effects 0
                              (if D = true then st2
                               else applyWrites st2 (g T).buildWrites)) := by
                          rw [hcl]
                          exact hx2
                        rcases commitList_events T D (g T).effects 0 _ _ hce with
                          ⟨j, hj⟩
                        have hXT : X = T := by
                          cases hj
                          rfl
                        rw [hXT]
                        exact List.mem_append_right _ (List.mem_cons_self _ _)
                | error p =>
                    obtain ⟨te, st3, evc⟩ := p
                    simp only [hcl] at hx
                    simp only [MakeRes.events] at hx ⊢
                    rcases List.mem_append.1 hx with hx1 | hx1
                    · rw [← hev] at hx1
                      refine List.mem_append_left _ ?_
                      rw [← hev]
                      exact depsList_commit_build (makeF g F D n) g ih
                        (g T).deps F st X i hx1
                    · rcases List.mem_cons.1 hx1 with hx2 | hx2
                      · simp at hx2
                      · have hce : Event.commitE X i ∈
                            commitEventsOf (commitList T D (g T).effects 0
                              (if D = true then st2
                               else applyWrites st2 (g T).buildWrites)) := by
                          rw [hcl]
                          exact hx2
                        rcases commitList_events T D (g T).effects 0 _ _ hce with
                          ⟨j, hj⟩
                        have hXT : X = T := by
                          cases hj
                          rfl
                        rw [hXT]
                        exact List.mem_append_right _ (List.mem_cons_self _ _)
          · rw [if_neg houtd] at hx ⊢
            simp only [MakeRes.events] at hx ⊢
            rw [← hev] at hx ⊢
            exact depsList_commit_build (makeF g F D n) g ih (g T).deps F st X i hx

/-- Every build event of a `make` run belongs to a target reachable from
the run's root through dependency views, and it was emitted by a frame
whose own `build_deps` succeeded with a `true` staleness flag at some
smaller fuel. -/
theorem makeF_build_analysis (g : Graph) (F D : Bool) :
    ∀ n T st X, Event.buildE X ∈ (makeF g F D n T st).events →
      Relation.ReflTransGen (EdgeG g) T X
      ∧ ∃ m, m < n ∧ ∃ stx stx1 evx,
          depsList (makeF g F D m) g (g X).deps F stx = .ok true stx1 evx := by
  intro n
  induction n with
  | zero =>
      intro T st X hx
      simp [makeF, MakeRes.events] at hx
  | succ n ih =>
      intro T st X hx
      cases hdec : depsList (makeF g F D n) g (g T).deps F st with
      | fuelOut =>
          simp only [makeF, hdec] at hx
          simp [MakeRes.events] at hx
      | error e st2 ev2 =>
          simp only [makeF, hdec, MakeRes.events] at hx
          have hev : (depsList (makeF g F D n) g (g T).deps F st).events = ev2 := by
            rw [hdec]
            rfl
          rw [← hev] at hx
          rcases depsList_build_origin (makeF g F D n) g
              (fun Tt X => Relation.ReflTransGen (EdgeG g) Tt X
                ∧ ∃ m, m < n ∧ ∃ stx stx1 evx,
                    depsList (makeF g F D m) g (g X).deps F stx =
                      .ok true stx1 evx)
              ih (g T).deps F st X hx with ⟨v, hv, hQ⟩
          refine ⟨Relation.ReflTransGen.head ⟨v, hv, rfl⟩ hQ.1, ?_⟩
          rcases hQ.2 with ⟨m, hm, hrest⟩
          exact ⟨m, Nat.lt_succ_of_lt hm, hrest⟩
      | ok outd st2 ev2 =>
          simp only [makeF, hdec] at hx
          have hev : (depsList (makeF g F D n) g (g T).deps F st).events = ev2 := by
            rw [hdec]
            rfl
          have horigin : Event.buildE X ∈ ev2 →
              Relation.ReflTransGen (EdgeG g) T X
              ∧ ∃ m, m < n + 1 ∧ ∃ stx stx1 evx,
                  depsList (makeF g F D m) g (g X).deps F stx =
                    .ok true stx1 evx := by
            intro hx1
            rw [← hev] at hx1
            rcases depsList_build_origin (makeF g F D n) g
                (fun Tt X => Relation.ReflTransGen (EdgeG g) Tt X
                  ∧ ∃ m, m < n ∧ ∃ stx stx1 evx,
                      depsList (makeF g F D m) g (g X).deps F stx =
                        .ok true stx1 evx)
                ih (g T).deps F st X hx1 with ⟨v, hv, hQ⟩
            refine ⟨Relation.ReflTransGen.head ⟨v, hv, rfl⟩ hQ.1, ?_⟩
            rcases hQ.2 with ⟨m, hm, hrest⟩
            exact ⟨m, Nat.lt_succ_of_lt hm, hrest⟩
          by_cases houtd : outd = true
          · rw [if_pos houtd] at hx
            subst houtd
            cases hbr : (g T).buildResult with
            | some e =>
                simp only [hbr] at hx
                simp only [MakeRes.events] at hx
                rcases List.mem_append.1 hx with hx1 | hx1
                · exact horigin hx1
                · rcases List.mem_singleton.1 hx1 with hx2
                  have hXT : X = T := by
                    cases hx2
                    rfl
                  subst hXT
                  exact ⟨Relation.ReflTransGen.refl,
                    n, Nat.lt_succ_self n, st, st2, ev2, hdec⟩
            | none =>
                simp only [hbr] at hx
                cases hcl : commitList T D (g T).effects 0
                    (if D = true then st2 else applyWrites st2 (g T).buildWrites) with
                | ok p =>
                    obtain ⟨st3, evc⟩ := p
                    simp only [hcl] at hx
                    simp only [MakeRes.events] at hx
                    rcases List.mem_append.1 hx with hx1 | hx1
                    · exact horigin hx1
                    · rcases List.mem_cons.1 hx1 with hx2 | hx2
                      · have hXT : X = T := by
                          cases hx2
                          rfl
                        subst hXT
                        exact ⟨Relation.ReflTransGen.refl,
                          n, Nat.lt_succ_self n, st, st2, ev2, hdec⟩
                      · have hce : Event.buildE X ∈
                            commitEventsOf (commitList T D (g T).effects 0
                              (if D = true then st2
                               else applyWrites st2 (g T).buildWrites)) := by
                          rw [hcl]
                          exact hx2
                        rcases commitList_events T D (g T).effects 0 _ _ hce with
                          ⟨j, hj⟩
                        exact absurd hj (by simp)
                | error p =>
                    obtain ⟨te, st3, evc⟩ := p
                    simp only [hcl] at hx
                    simp only [MakeRes.events] at hx
                    rcases List.mem_append.1 hx with hx1 | hx1
                    · exact horigin hx1
                    · rcases List.mem_cons.1 hx1 with hx2 | hx2
                      · have hXT : X = T := by
                          cases hx2
                          rfl
                        subst hXT
                        exact ⟨Relation.ReflTransGen.refl,
                          n, Nat.lt_succ_self n, st, st2, ev2, hdec⟩
                      · have hce : Event.buildE X ∈
                            commitEventsOf (commitList T D (g T).effects 0
                              (if D = true then st2
                               else applyWrites st2 (g T).buildWrites)) := by
                          rw [hcl]
                          exact hx2
                        rcases commitList_events T D (g T).effects 0 _ _ hce with
                          ⟨j, hj⟩
                        exact absurd hj (by simp)
          · rw [if_neg houtd] at hx
            simp only [MakeRes.events] at hx
            exact horigin hx

/-- A successful `make` at positive fuel had a successful `build_deps`
over its own views at the previous fuel. -/
theorem makeF_ok_frame (g : Graph) (F D : Bool) (n T : Nat)
    (st st1 : EngineState) (ev : List Event)
    (h : makeF g F D (n + 1) T st = .ok st1 ev) :
    ∃ o stx evx, depsList (makeF g F D n) g (g T).deps F st = .ok o stx evx := by
  simp only [makeF] at h
  split at h
  · cases h
  · cases h
  · rename_i outd st2 ev2 hdec
    exact ⟨outd, st2, ev2, hdec⟩

/-- On a target that lies on a dependency cycle, `build_deps` never
succeeds at any fuel: the recursion re-enters the cycle and exhausts any
fuel before every view can complete. -/
theorem cyclic_no_depsList_ok (g : Graph) (F D : Bool) :
    ∀ n T st outd o st1 ev, Relation.TransGen (EdgeG g) T T →
      depsList (makeF g F D n) g (g T).deps outd st = .ok o st1 ev → False := by
  intro n
  induction n using Nat.strong_induction_on with
  | _ n ih =>
      intro T st outd o st1 ev hcyc hdep
      rcases Relation.TransGen.head'_iff.1 hcyc with ⟨U, hTU, hUT⟩
      have hUcyc : Relation.TransGen (EdgeG g) U U :=
        Relation.TransGen.tail' hUT hTU
      rcases hTU with ⟨v, hv, hveq⟩
      rcases depsList_ok_each (makeF g F D n) g (g T).deps outd st o st1 ev hdep
          v hv with ⟨stv, stv1, evv, hmkv, _⟩
      rw [hveq] at hmkv
      cases n with
      | zero => cases hmkv
      | succ m =>
          rcases makeF_ok_frame g F D m U stv stv1 evv hmkv with
            ⟨o2, stx, evx, hframe⟩
          exact ih m (Nat.lt_succ_self m) U stv F o2 stx evx hUcyc hframe

/-- Claim C2: when `make` finds a target stale (its `build_deps`
returned `true`), it invokes `build`; if the child `build` returns an
error, `make` returns exactly that error with the run stopping right
after the build event — `commit` is not invoked, no effect of the target
is committed anywhere in the run, and the error propagates out of
`make` unchanged. -/
theorem make_stale_build_error_no_commit (g : Graph) (F D : Bool) (n T : Nat)
    (st st1 : EngineState) (ev1 : List Event)
    (hdeps : depsList (makeF g F D n) g (g T).deps F st = .ok true st1 ev1) :
    Event.buildE T ∈ (makeF g F D (n + 1) T st).events
    ∧ ∀ e, (g T).buildResult = some e →
        makeF g F D (n + 1) T st = .error e st1 (ev1 ++ [Event.buildE T])
        ∧ ∀ i, Event.commitE T i ∉ ev1 ++ [Event.buildE T] := by
  have hev : (depsList (makeF g F D n) g (g T).deps F st).events = ev1 := by
    rw [hdeps]
    rfl
  have hnoself : Event.buildE T ∉ ev1 := by
    intro hbt
    rw [← hev] at hbt
    rcases depsList_build_origin (makeF g F D n) g
        (fun Tt X => Relation.ReflTransGen (EdgeG g) Tt X
          ∧ ∃ m, m < n ∧ ∃ stx stx1 evx,
              depsList (makeF g F D m) g (g X).deps F stx = .ok true stx1 evx)
        (makeF_build_analysis g F D n) (g T).deps F st T hbt with
      ⟨v, hv, hreach, m, hm, stx, stx1, evx, hframe⟩
    have hcyc : Relation.TransGen (EdgeG g) T T :=
      Relation.TransGen.head' ⟨v, hv, rfl⟩ hreach
    exact cyclic_no_depsList_ok g F D m T stx F true stx1 evx hcyc hframe
  constructor
  · cases hbr : (g T).buildResult with
    | some e =>
        simp [makeF, hdeps, hbr, MakeRes.events]
    | none =>
        cases hcl : commitList T D (g T).effects 0
            (if D = true then st1 else applyWrites st1 (g T).buildWrites) with
        | ok p =>
            obtain ⟨st3, evc⟩ := p
            simp [makeF, hdeps, hbr, hcl, MakeRes.events]
        | error p =>
            obtain ⟨te, st3, evc⟩ := p
            simp [makeF, hdeps, hbr, hcl, MakeRes.events]
  · intro e he
    constructor
    · simp [makeF, hdeps, he]
    · intro i hmem
      rcases List.mem_append.1 hmem with h1 | h1
      · have h2 : Event.commitE T i ∈
            (depsList (makeF g F D n) g (g T).deps F st).events := by
          rw [hev]
          exact h1
        have h3 := depsList_commit_build (makeF g F D n) g
          (makeF_commit_build g F D n) (g T).deps F st T i h2
        rw [hev] at h3
        exact hnoself h3
      · rcases List.mem_singleton.1 h1 with h2
        simp at h2

/-- The graph witnessing claim C2: target 0 (`A`) owns a file effect;
target 1 (`B`) views it and `B`'s child build fails. -/
def buildFailGraph : Graph := fun i =>
  match i with
  | 0 => TargetData.mk "A" [] [Eff.mk "f" (.file 0)] Option.none []
  | 1 => TargetData.mk "B" [EffectView.mk 0 [ViewFilter.all]] []
      (some (.buildError "B")) []
  | _ => TargetData.mk "other" [] [] Option.none []

/-- Witness for `make_stale_build_error_no_commit`: `B` is stale (the
viewed file effect has no cache entry), its build fails, and `make`
returns the build error with no commit in the run. -/
theorem make_stale_build_error_no_commit_witness :
    Event.buildE 1 ∈ (makeF buildFailGraph false false 10 1 rebuildState).events
    ∧ makeF buildFailGraph false false 10 1 rebuildState =
        .error (TargetError.buildError "B") rebuildState
          ([] ++ [Event.buildE 1]) := by
  have h := make_stale_build_error_no_commit buildFailGraph false false 9 1
    rebuildState rebuildState [] (by decide)
  exact ⟨h.1, (h.2 (TargetError.buildError "B") (by decide)).1⟩
